import Mathlib

/-!
Verification of the AprilTag allocation and identification core of the
pad-salience-annotations repository.

The allocator definitions below are a shallow embedding of
scripts/allocate_tags.py; the identifier definitions embed
identify_sample_by_tags from app/database.py.  Marker-ID sets are
modelled as Finset over the natural numbers, the database rows consumed
by the identifier as an association list from sample id to marker set,
and the allocator's hard failure as the error branch of Except carrying
the pool size reported in the ValueError message.
-/

/-- Configuration constant TOTAL_TAGS from scripts/allocate_tags.py.
The allocator functions below take the universe size as a parameter so
that the documented configuration variations remain expressible; this
constant records the repository default. -/
def TOTAL_TAGS : ℕ := 587

/-- Configuration constant TAGS_PER_SAMPLE from scripts/allocate_tags.py. -/
def TAGS_PER_SAMPLE : ℕ := 4

/-- Configuration constant MIN_DISTANCE from scripts/allocate_tags.py. -/
def MIN_DISTANCE : ℕ := 2

/-- Embedding of calculate_distance from scripts/allocate_tags.py:
half the cardinality of the symmetric difference of the two sets,
with Python's floor division. -/
def calculate_distance (set1 set2 : Finset ℕ) : ℕ :=
  (symmDiff set1 set2).card / 2

/-- Embedding of is_valid_allocation from scripts/allocate_tags.py: the
candidate shares at most TAGS_PER_SAMPLE - min_distance members with
every existing allocation.  The comparison is carried out over the
integers exactly as Python evaluates shared > TAGS_PER_SAMPLE - min_distance. -/
def is_valid_allocation (candidate : Finset ℕ) (existing : List (Finset ℕ))
    (min_distance : ℕ) : Bool :=
  existing.all fun e =>
    decide (((candidate ∩ e).card : ℤ) ≤ (TAGS_PER_SAMPLE : ℤ) - (min_distance : ℤ))

/-- Embedding of itertools.combinations: all k-element sublists of the
pool, in the same lexicographic-by-position order Python emits them. -/
def combinations : ℕ → List ℕ → List (List ℕ)
  | 0, _ => [[]]
  | _ + 1, [] => []
  | k + 1, x :: xs => ((combinations k xs).map fun c => x :: c) ++ combinations (k + 1) xs

/-- Embedding of the tag_usage dictionary built inside allocate_tags_greedy:
the number of existing allocations containing the tag. -/
def tagUsage (existing : List (Finset ℕ)) (t : ℕ) : ℕ :=
  existing.countP fun s => decide (t ∈ s)

/-- Comparison used to embed sorted(all_tags, key=usage): Python's stable
sort of the ascending list of tag ids keyed by usage orders tags by the
lexicographic key (usage, id). -/
def usageLE (existing : List (Finset ℕ)) (a b : ℕ) : Bool :=
  decide (tagUsage existing a < tagUsage existing b ∨
    (tagUsage existing a = tagUsage existing b ∧ a ≤ b))

/-- Insertion of an element into a list ahead of the first element it
compares below; auxiliary to the sort embedding. -/
def insertSorted (le : ℕ → ℕ → Bool) (x : ℕ) : List ℕ → List ℕ
  | [] => [x]
  | y :: ys => if le x y then x :: y :: ys else y :: insertSorted le x ys

/-- Structural insertion sort; with the total antisymmetric comparison
usageLE on the duplicate-free tag list this computes the same list as
Python's stable sorted. -/
def insertionSort (le : ℕ → ℕ → Bool) : List ℕ → List ℕ
  | [] => []
  | x :: xs => insertSorted le x (insertionSort le xs)

/-- The sorted_tags list of allocate_tags_greedy: all tag ids ordered by
ascending usage, ties broken by ascending id. -/
def sortedTags (totalTags : ℕ) (existing : List (Finset ℕ)) : List ℕ :=
  insertionSort (usageLE existing) (List.range totalTags)

/-- The restricted search space of allocate_tags_greedy: 4-element
combinations of the 100 least-used tags, in enumeration order. -/
def restrictedCombos (totalTags : ℕ) (existing : List (Finset ℕ)) : List (List ℕ) :=
  combinations TAGS_PER_SAMPLE ((sortedTags totalTags existing).take 100)

/-- The fallback search space of allocate_tags_greedy: 4-element
combinations of the entire marker universe in ascending order. -/
def allCombos (totalTags : ℕ) : List (List ℕ) :=
  combinations TAGS_PER_SAMPLE (List.range totalTags)

/-- One iteration of the loop body of allocate_tags_greedy: the first
valid combination from the restricted pool, else the first valid
combination from the whole universe, else failure. -/
def allocateOne (totalTags : ℕ) (allExisting : List (Finset ℕ)) : Option (Finset ℕ) :=
  match (restrictedCombos totalTags allExisting).find?
      (fun combo => is_valid_allocation combo.toFinset allExisting MIN_DISTANCE) with
  | some combo => some combo.toFinset
  | none =>
      ((allCombos totalTags).find?
        (fun combo => is_valid_allocation combo.toFinset allExisting MIN_DISTANCE)).map
        fun combo => combo.toFinset

/-- The counting loop of allocate_tags_greedy: each successful allocation
is appended to the working pool before the next is computed; on failure
the error carries the size of the working pool, as the ValueError message
does. -/
def allocGo (totalTags : ℕ) : ℕ → List (Finset ℕ) → Except ℕ (List (Finset ℕ))
  | 0, _ => .ok []
  | n + 1, allExisting =>
      match allocateOne totalTags allExisting with
      | some c => (allocGo totalTags n (allExisting ++ [c])).map fun rest => c :: rest
      | none => .error allExisting.length

/-- Embedding of allocate_tags_greedy from scripts/allocate_tags.py. -/
def allocate_tags_greedy (totalTags : ℕ) (existing_allocations : List (Finset ℕ))
    (count : ℕ) : Except ℕ (List (Finset ℕ)) :=
  allocGo totalTags count existing_allocations

/-- Intersection score of a detection set against one sample row, as
computed inside identify_sample_by_tags. -/
def tagScore (detected : Finset ℕ) (row : ℕ × Finset ℕ) : ℕ :=
  (detected ∩ row.2).card

/-- One iteration of the best/second-best tracking loop of
identify_sample_by_tags (state: best_match, best_score, second_best_score). -/
def identifyStep (detected : Finset ℕ) (st : Option ℕ × ℕ × ℕ)
    (row : ℕ × Finset ℕ) : Option ℕ × ℕ × ℕ :=
  match st with
  | (best_match, best_score, second_best_score) =>
      if best_score < tagScore detected row then
        (some row.1, tagScore detected row, best_score)
      else if second_best_score < tagScore detected row then
        (best_match, best_score, tagScore detected row)
      else (best_match, best_score, second_best_score)

/-- The full scoring pass of identify_sample_by_tags over the sample rows. -/
def identifyFold (detected : Finset ℕ) (rows : List (ℕ × Finset ℕ)) :
    Option ℕ × ℕ × ℕ :=
  rows.foldl (identifyStep detected) (none, 0, 0)

/-- Embedding of identify_sample_by_tags from app/database.py.  The rows
argument stands for the grouped sample_tags table rows the function reads. -/
def identify_sample_by_tags (rows : List (ℕ × Finset ℕ)) (detected_tags : List ℕ)
    (min_match : ℕ) : Option ℕ :=
  if detected_tags.length < min_match then none
  else
    let st := identifyFold detected_tags.toFinset rows
    if min_match ≤ st.2.1 ∧ 1 ≤ st.2.1 - st.2.2 then st.1 else none

/-- Maximum of a list of naturals, zero on the empty list; used to state
properties about the best score over all samples. -/
def listMax (l : List ℕ) : ℕ := l.foldr max 0

/-- Predicate, following the specification's wording for the allocator's
choice: c is the set of the first combination in the enumeration that is
valid against the pool, every earlier combination being invalid. -/
def isFirstValid (combos : List (List ℕ)) (pool : List (Finset ℕ)) (c : Finset ℕ) : Prop :=
  ∃ pre combo post, combos = pre ++ combo :: post ∧ c = combo.toFinset ∧
    is_valid_allocation combo.toFinset pool MIN_DISTANCE = true ∧
    ∀ x ∈ pre, is_valid_allocation x.toFinset pool MIN_DISTANCE = false

instance : DecidableEq (Except ℕ (List (Finset ℕ))) := fun a b =>
  match a, b with
  | .ok x, .ok y => if h : x = y then isTrue (by rw [h]) else isFalse (by simp [h])
  | .error x, .error y => if h : x = y then isTrue (by rw [h]) else isFalse (by simp [h])
  | .ok _, .error _ => isFalse (by simp)
  | .error _, .ok _ => isFalse (by simp)

section HelperLemmas

theorem card_symmDiff_eq (s t : Finset ℕ) :
    (symmDiff s t).card = (s.card - (s ∩ t).card) + (t.card - (t ∩ s).card) := by
  have hdisj : Disjoint (s \ t) (t \ s) := disjoint_sdiff_sdiff
  have hs : (s \ t).card = s.card - (s ∩ t).card := by
    rw [← Finset.sdiff_inter_self_left s t]
    exact Finset.card_sdiff Finset.inter_subset_left
  have ht : (t \ s).card = t.card - (t ∩ s).card := by
    rw [← Finset.sdiff_inter_self_left t s]
    exact Finset.card_sdiff Finset.inter_subset_left
  have hu : symmDiff s t = (s \ t) ∪ (t \ s) := by rw [symmDiff_def]; rfl
  rw [hu, Finset.card_union_of_disjoint hdisj, hs, ht]

theorem find?_split {α : Type} (p : α → Bool) :
    ∀ (l : List α) (a : α), l.find? p = some a →
      ∃ l₁ l₂, l = l₁ ++ a :: l₂ ∧ ∀ x ∈ l₁, p x = false := by
  intro l
  induction l with
  | nil => intro a h; simp [List.find?] at h
  | cons x xs ih =>
      intro a h
      by_cases hx : p x
      · rw [List.find?_cons_of_pos xs hx] at h
        obtain rfl : x = a := by injection h
        exact ⟨[], xs, rfl, by simp⟩
      · rw [List.find?_cons_of_neg xs hx] at h
        obtain ⟨l₁, l₂, hl, hall⟩ := ih a h
        refine ⟨x :: l₁, l₂, by simp [hl], ?_⟩
        intro y hy
        rcases List.mem_cons.mp hy with rfl | hy'
        · simpa using hx
        · exact hall y hy'

theorem listMax_cons (x : ℕ) (l : List ℕ) : listMax (x :: l) = max x (listMax l) := rfl

theorem le_listMax {l : List ℕ} {x : ℕ} (h : x ∈ l) : x ≤ listMax l := by
  induction l with
  | nil => cases h
  | cons y ys ih =>
      rcases List.mem_cons.mp h with rfl | h'
      · rw [listMax_cons]; omega
      · have := ih h'
        rw [listMax_cons]; omega

theorem listMax_append (l₁ l₂ : List ℕ) :
    listMax (l₁ ++ l₂) = max (listMax l₁) (listMax l₂) := by
  induction l₁ with
  | nil => simp [listMax]
  | cons x xs ih => rw [List.cons_append, listMax_cons, listMax_cons, ih]; omega

theorem listMax_mem_of_pos {l : List ℕ} (h : 0 < listMax l) : listMax l ∈ l := by
  induction l with
  | nil => simp [listMax] at h
  | cons x xs ih =>
      rw [listMax_cons] at h ⊢
      rcases Nat.lt_or_ge (listMax xs) x with hlt | hle
      · have hx : max x (listMax xs) = x := by omega
        rw [hx]
        exact List.mem_cons_self x xs
      · have hx : max x (listMax xs) = listMax xs := by omega
        rw [hx] at h ⊢
        exact List.mem_cons_of_mem x (ih h)

theorem listMax_lt_of_forall {l : List ℕ} {m : ℕ} (hm : 0 < m)
    (h : ∀ x ∈ l, x < m) : listMax l < m := by
  induction l with
  | nil => simpa [listMax] using hm
  | cons x xs ih =>
      rw [listMax_cons]
      have hx := h x (List.mem_cons_self x xs)
      have := ih fun y hy => h y (List.mem_cons_of_mem x hy)
      omega

theorem mem_combinations {k : ℕ} {l c : List ℕ} :
    c ∈ combinations k l ↔ c.Sublist l ∧ c.length = k := by
  induction l generalizing k c with
  | nil =>
      cases k with
      | zero =>
          simp only [combinations, List.mem_singleton]
          constructor
          · rintro rfl; exact ⟨List.Sublist.refl [], rfl⟩
          · rintro ⟨hs, hlen⟩
            cases List.sublist_nil.mp hs
            rfl
      | succ k =>
          simp only [combinations, List.not_mem_nil, false_iff]
          rintro ⟨hs, hlen⟩
          cases List.sublist_nil.mp hs
          simp at hlen
  | cons x xs ih =>
      cases k with
      | zero =>
          simp only [combinations, List.mem_singleton]
          constructor
          · rintro rfl; exact ⟨List.nil_sublist _, rfl⟩
          · rintro ⟨hs, hlen⟩
            exact List.eq_nil_of_length_eq_zero hlen
      | succ k =>
          simp only [combinations, List.mem_append, List.mem_map]
          constructor
          · rintro (⟨c', hc', rfl⟩ | hc)
            · obtain ⟨hs, hlen⟩ := ih.mp hc'
              exact ⟨List.Sublist.cons₂ x hs, by simp [hlen]⟩
            · obtain ⟨hs, hlen⟩ := ih.mp hc
              exact ⟨List.Sublist.cons x hs, hlen⟩
          · rintro ⟨hs, hlen⟩
            cases hs with
            | cons _ hs' => exact Or.inr (ih.mpr ⟨hs', hlen⟩)
            | cons₂ _ hs' =>
                exact Or.inl ⟨_, ih.mpr ⟨hs', by simpa using hlen⟩, rfl⟩

theorem combinations_complete {t : ℕ} (s : Finset ℕ) (hb : ∀ x ∈ s, x < t) :
    ∃ c, c ∈ combinations s.card (List.range t) ∧ c.toFinset = s ∧ c.Nodup := by
  induction t generalizing s with
  | zero =>
      have hs : s = ∅ := by
        ext x; simp only [Finset.not_mem_empty, iff_false]
        intro hx; exact absurd (hb x hx) (Nat.not_lt_zero x)
      refine ⟨[], ?_, by simp [hs], List.nodup_nil⟩
      rw [hs]
      simp only [Finset.card_empty, List.range_zero]
      exact List.mem_singleton_self []
  | succ t ih =>
      by_cases hmem : t ∈ s
      · obtain ⟨c, hc, hcf, hcn⟩ := ih (s.erase t) (fun x hx => by
          have hxs := Finset.mem_of_mem_erase hx
          have hne := Finset.ne_of_mem_erase hx
          have := hb x hxs
          omega)
        obtain ⟨hs, hlen⟩ := mem_combinations.mp hc
        have htc : t ∉ c := by
          intro hct
          have : t ∈ s.erase t := hcf ▸ List.mem_toFinset.mpr hct
          exact absurd this (Finset.not_mem_erase t s)
        refine ⟨c ++ [t], ?_, ?_, ?_⟩
        · apply mem_combinations.mpr
          constructor
          · rw [List.range_succ]
            exact List.Sublist.append hs (List.Sublist.refl [t])
          · rw [List.length_append, hlen]
            simp [Finset.card_erase_of_mem hmem]
            have : 0 < s.card := Finset.card_pos.mpr ⟨t, hmem⟩
            omega
        · rw [List.toFinset_append, hcf]
          have hsing : ([t] : List ℕ).toFinset = {t} := by simp
          rw [hsing, Finset.union_comm, ← Finset.insert_eq, Finset.insert_erase hmem]
        · rw [List.nodup_append]
          exact ⟨hcn, List.nodup_singleton t, by
            intro x hx hxt
            rcases List.mem_singleton.mp hxt with rfl
            exact htc hx⟩
      · obtain ⟨c, hc, hcf, hcn⟩ := ih s (fun x hx => by
          have := hb x hx
          have : x ≠ t := fun h => hmem (h ▸ hx)
          omega)
        obtain ⟨hs, hlen⟩ := mem_combinations.mp hc
        refine ⟨c, ?_, hcf, hcn⟩
        apply mem_combinations.mpr
        refine ⟨?_, hlen⟩
        rw [List.range_succ]
        exact hs.trans (List.sublist_append_left _ _)

theorem insertSorted_perm (le : ℕ → ℕ → Bool) (x : ℕ) (l : List ℕ) :
    (insertSorted le x l).Perm (x :: l) := by
  induction l with
  | nil => exact List.Perm.refl _
  | cons y ys ih =>
      simp only [insertSorted]
      by_cases h : le x y
      · rw [if_pos h]
      · rw [if_neg h]
        exact (List.Perm.cons y ih).trans (List.Perm.swap x y ys)

theorem insertionSort_perm (le : ℕ → ℕ → Bool) (l : List ℕ) :
    (insertionSort le l).Perm l := by
  induction l with
  | nil => exact List.Perm.refl _
  | cons x xs ih =>
      simp only [insertionSort]
      exact (insertSorted_perm le x _).trans (List.Perm.cons x ih)

theorem sortedTags_perm (totalTags : ℕ) (existing : List (Finset ℕ)) :
    (sortedTags totalTags existing).Perm (List.range totalTags) :=
  insertionSort_perm _ _

theorem sortedTags_nodup (totalTags : ℕ) (existing : List (Finset ℕ)) :
    (sortedTags totalTags existing).Nodup :=
  (sortedTags_perm totalTags existing).symm.nodup (List.nodup_range totalTags)

theorem sortedTags_mem {totalTags : ℕ} {existing : List (Finset ℕ)} {x : ℕ}
    (h : x ∈ sortedTags totalTags existing) : x < totalTags := by
  have := (sortedTags_perm totalTags existing).mem_iff.mp h
  simpa using this

end HelperLemmas

section AllocatorLemmas

theorem allocateOne_valid {totalTags : ℕ} {ex : List (Finset ℕ)} {c : Finset ℕ}
    (h : allocateOne totalTags ex = some c) :
    is_valid_allocation c ex MIN_DISTANCE = true := by
  unfold allocateOne at h
  cases hfind : (restrictedCombos totalTags ex).find?
      (fun combo => is_valid_allocation combo.toFinset ex MIN_DISTANCE) with
  | some combo =>
      rw [hfind] at h
      obtain rfl : combo.toFinset = c := by injection h
      have hp := @List.find?_some _
        (fun combo => is_valid_allocation combo.toFinset ex MIN_DISTANCE) combo _ hfind
      simpa using hp
  | none =>
      rw [hfind] at h
      cases hfull : (allCombos totalTags).find?
          (fun combo => is_valid_allocation combo.toFinset ex MIN_DISTANCE) with
      | some combo =>
          rw [hfull] at h
          obtain rfl : combo.toFinset = c := by injection h
          have hp := @List.find?_some _
            (fun combo => is_valid_allocation combo.toFinset ex MIN_DISTANCE) combo _ hfull
          simpa using hp
      | none => rw [hfull] at h; cases h

theorem allocateOne_first {totalTags : ℕ} {ex : List (Finset ℕ)} {c : Finset ℕ}
    (h : allocateOne totalTags ex = some c) :
    isFirstValid (restrictedCombos totalTags ex) ex c ∨
      ((∀ x ∈ restrictedCombos totalTags ex,
          is_valid_allocation x.toFinset ex MIN_DISTANCE = false) ∧
        isFirstValid (allCombos totalTags) ex c) := by
  unfold allocateOne at h
  cases hfind : (restrictedCombos totalTags ex).find?
      (fun combo => is_valid_allocation combo.toFinset ex MIN_DISTANCE) with
  | some combo =>
      rw [hfind] at h
      obtain rfl : combo.toFinset = c := by injection h
      left
      obtain ⟨l₁, l₂, hl, hall⟩ := find?_split _ _ _ hfind
      have hp := @List.find?_some _
        (fun combo => is_valid_allocation combo.toFinset ex MIN_DISTANCE) combo _ hfind
      exact ⟨l₁, combo, l₂, hl, rfl, by simpa using hp, fun x hx => by
        simpa using hall x hx⟩
  | none =>
      rw [hfind] at h
      cases hfull : (allCombos totalTags).find?
          (fun combo => is_valid_allocation combo.toFinset ex MIN_DISTANCE) with
      | some combo =>
          rw [hfull] at h
          obtain rfl : combo.toFinset = c := by injection h
          right
          refine ⟨fun x hx => by
            have := List.find?_eq_none.mp hfind x hx
            simpa using this, ?_⟩
          obtain ⟨l₁, l₂, hl, hall⟩ := find?_split _ _ _ hfull
          have hp := @List.find?_some _
            (fun combo => is_valid_allocation combo.toFinset ex MIN_DISTANCE) combo _ hfull
          exact ⟨l₁, combo, l₂, hl, rfl, by simpa using hp, fun x hx => by
            simpa using hall x hx⟩
      | none => rw [hfull] at h; cases h

theorem allocateOne_wf {totalTags : ℕ} {ex : List (Finset ℕ)} {c : Finset ℕ}
    (h : allocateOne totalTags ex = some c) :
    c.card = TAGS_PER_SAMPLE ∧ ∀ x ∈ c, x < totalTags := by
  have hcases := allocateOne_first h
  have key : ∀ pool : List ℕ, pool.Nodup → (∀ x ∈ pool, x < totalTags) →
      ∀ combo : List ℕ, combo ∈ combinations TAGS_PER_SAMPLE pool →
      combo.toFinset.card = TAGS_PER_SAMPLE ∧ ∀ x ∈ combo.toFinset, x < totalTags := by
    intro pool hnd hbound combo hc
    obtain ⟨hs, hlen⟩ := mem_combinations.mp hc
    have hcn : combo.Nodup := hnd.sublist hs
    constructor
    · rw [List.toFinset_card_of_nodup hcn, hlen]
    · intro x hx
      exact hbound x (hs.subset (List.mem_toFinset.mp hx))
  rcases hcases with ⟨l₁, combo, l₂, hl, rfl, _, _⟩ | ⟨_, l₁, combo, l₂, hl, rfl, _, _⟩
  · have hmem : combo ∈ restrictedCombos totalTags ex := by
      rw [hl]; exact List.mem_append_right l₁ (List.mem_cons_self combo l₂)
    have htake : ((sortedTags totalTags ex).take 100).Nodup :=
      (sortedTags_nodup totalTags ex).sublist (List.take_sublist 100 _)
    have hbound : ∀ x ∈ (sortedTags totalTags ex).take 100, x < totalTags := fun x hx =>
      sortedTags_mem ((List.take_sublist 100 _).subset hx)
    exact key _ htake hbound combo hmem
  · have hmem : combo ∈ allCombos totalTags := by
      rw [hl]; exact List.mem_append_right l₁ (List.mem_cons_self combo l₂)
    exact key _ (List.nodup_range totalTags) (fun x hx => by simpa using hx) combo hmem

theorem allocateOne_none_iff {totalTags : ℕ} {ex : List (Finset ℕ)} :
    allocateOne totalTags ex = none ↔
      ∀ combo ∈ allCombos totalTags,
        is_valid_allocation combo.toFinset ex MIN_DISTANCE = false := by
  constructor
  · intro h combo hc
    unfold allocateOne at h
    cases hfind : (restrictedCombos totalTags ex).find?
        (fun combo => is_valid_allocation combo.toFinset ex MIN_DISTANCE) with
    | some c => rw [hfind] at h; cases h
    | none =>
        rw [hfind] at h
        cases hfull : (allCombos totalTags).find?
            (fun combo => is_valid_allocation combo.toFinset ex MIN_DISTANCE) with
        | some c => rw [hfull] at h; cases h
        | none =>
            have := List.find?_eq_none.mp hfull combo hc
            simpa using this
  · intro hall
    have hres : ∀ combo ∈ restrictedCombos totalTags ex,
        is_valid_allocation combo.toFinset ex MIN_DISTANCE = false := by
      intro combo hc
      obtain ⟨hs, hlen⟩ := mem_combinations.mp hc
      have hcn : combo.Nodup :=
        ((sortedTags_nodup totalTags ex).sublist (List.take_sublist 100 _)).sublist hs
      by_contra hvalid
      have hvalid' : is_valid_allocation combo.toFinset ex MIN_DISTANCE = true := by
        cases hv : is_valid_allocation combo.toFinset ex MIN_DISTANCE
        · exact absurd hv hvalid
        · rfl
      have hbound : ∀ x ∈ combo.toFinset, x < totalTags := fun x hx =>
        sortedTags_mem ((List.take_sublist 100 _).subset (hs.subset (List.mem_toFinset.mp hx)))
      have hcard : combo.toFinset.card = TAGS_PER_SAMPLE := by
        rw [List.toFinset_card_of_nodup hcn, hlen]
      obtain ⟨c, hcmem, hcf, _⟩ := combinations_complete combo.toFinset hbound
      rw [hcard] at hcmem
      have := hall c hcmem
      rw [hcf, hvalid'] at this
      cases this
    have h1 : (restrictedCombos totalTags ex).find?
        (fun combo => is_valid_allocation combo.toFinset ex MIN_DISTANCE) = none :=
      List.find?_eq_none.mpr fun x hx => by simp [hres x hx]
    have h2 : (allCombos totalTags).find?
        (fun combo => is_valid_allocation combo.toFinset ex MIN_DISTANCE) = none :=
      List.find?_eq_none.mpr fun x hx => by simp [hall x hx]
    unfold allocateOne
    rw [h1, h2]
    rfl

theorem is_valid_shared_le {c : Finset ℕ} {ex : List (Finset ℕ)}
    (h : is_valid_allocation c ex MIN_DISTANCE = true) :
    ∀ b ∈ ex, (c ∩ b).card ≤ TAGS_PER_SAMPLE - MIN_DISTANCE := by
  intro b hb
  have hz := List.all_eq_true.mp h b hb
  simp only [decide_eq_true_eq] at hz
  simp only [TAGS_PER_SAMPLE, MIN_DISTANCE] at hz ⊢
  omega

theorem allocGo_sep (totalTags : ℕ) :
    ∀ (n : ℕ) (ex res : List (Finset ℕ)), allocGo totalTags n ex = .ok res →
      (∀ a ∈ res, ∀ b ∈ ex, (a ∩ b).card ≤ TAGS_PER_SAMPLE - MIN_DISTANCE) ∧
        res.Pairwise fun a b => (a ∩ b).card ≤ TAGS_PER_SAMPLE - MIN_DISTANCE := by
  intro n
  induction n with
  | zero =>
      intro ex res h
      obtain rfl : ([] : List (Finset ℕ)) = res := by
        simpa [allocGo] using h
      exact ⟨by simp, List.Pairwise.nil⟩
  | succ n ih =>
      intro ex res h
      cases hone : allocateOne totalTags ex with
      | none =>
          have hs : allocGo totalTags (n + 1) ex = .error ex.length := by
            simp only [allocGo, hone]
          rw [hs] at h; cases h
      | some c =>
          have hs : allocGo totalTags (n + 1) ex =
              (allocGo totalTags n (ex ++ [c])).map fun rest => c :: rest := by
            simp only [allocGo, hone]
          rw [hs] at h
          cases hrest : allocGo totalTags n (ex ++ [c]) with
          | error e =>
              rw [hrest] at h
              simp only [Except.map] at h
              cases h
          | ok rest =>
              rw [hrest] at h
              simp only [Except.map] at h
              obtain rfl : c :: rest = res := by injection h
              obtain ⟨hvsrest, hpair⟩ := ih (ex ++ [c]) rest hrest
              have hcvalid := is_valid_shared_le (allocateOne_valid hone)
              constructor
              · intro a ha b hb
                rcases List.mem_cons.mp ha with rfl | ha'
                · exact hcvalid b hb
                · exact hvsrest a ha' b (List.mem_append_left [c] hb)
              · refine List.Pairwise.cons ?_ hpair
                intro a ha
                have := hvsrest a ha c (List.mem_append_right ex (List.mem_singleton_self c))
                rwa [Finset.inter_comm] at this

theorem allocGo_error (totalTags : ℕ) :
    ∀ (n : ℕ) (ex : List (Finset ℕ)) (k : ℕ), allocGo totalTags n ex = .error k →
      ∃ new, allocateOne totalTags (ex ++ new) = none ∧ k = (ex ++ new).length := by
  intro n
  induction n with
  | zero =>
      intro ex k h
      simp [allocGo] at h
  | succ n ih =>
      intro ex k h
      cases hone : allocateOne totalTags ex with
      | none =>
          have hs : allocGo totalTags (n + 1) ex = .error ex.length := by
            simp only [allocGo, hone]
          rw [hs] at h
          obtain rfl : ex.length = k := by injection h
          exact ⟨[], by simpa using hone, by simp⟩
      | some c =>
          have hs : allocGo totalTags (n + 1) ex =
              (allocGo totalTags n (ex ++ [c])).map fun rest => c :: rest := by
            simp only [allocGo, hone]
          rw [hs] at h
          cases hrest : allocGo totalTags n (ex ++ [c]) with
          | ok rest =>
              rw [hrest] at h
              simp only [Except.map] at h
              cases h
          | error e =>
              rw [hrest] at h
              simp only [Except.map] at h
              obtain rfl : e = k := by injection h
              obtain ⟨new', hnone, hlen⟩ := ih (ex ++ [c]) e hrest
              refine ⟨c :: new', ?_, ?_⟩
              · rwa [List.append_assoc, List.singleton_append] at hnone
              · rw [hlen]
                simp

theorem allocGo_step (totalTags : ℕ) :
    ∀ (n : ℕ) (ex res : List (Finset ℕ)), allocGo totalTags n ex = .ok res →
      ∀ i, i < res.length →
        allocateOne totalTags (ex ++ res.take i) = some (res.getD i ∅) := by
  intro n
  induction n with
  | zero =>
      intro ex res h i hi
      obtain rfl : ([] : List (Finset ℕ)) = res := by simpa [allocGo] using h
      simp at hi
  | succ n ih =>
      intro ex res h i hi
      cases hone : allocateOne totalTags ex with
      | none =>
          have hs : allocGo totalTags (n + 1) ex = .error ex.length := by
            simp only [allocGo, hone]
          rw [hs] at h; cases h
      | some c =>
          have hs : allocGo totalTags (n + 1) ex =
              (allocGo totalTags n (ex ++ [c])).map fun rest => c :: rest := by
            simp only [allocGo, hone]
          rw [hs] at h
          cases hrest : allocGo totalTags n (ex ++ [c]) with
          | error e =>
              rw [hrest] at h
              simp only [Except.map] at h
              cases h
          | ok rest =>
              rw [hrest] at h
              simp only [Except.map] at h
              obtain rfl : c :: rest = res := by injection h
              cases i with
              | zero => simpa using hone
              | succ i =>
                  have hi' : i < rest.length := by simpa using hi
                  have := ih (ex ++ [c]) rest hrest i hi'
                  rw [List.take_succ_cons, List.getD_cons_succ]
                  rwa [List.append_assoc, List.singleton_append] at this

end AllocatorLemmas

section IdentifierLemmas

theorem foldl_identifyStep_char (d : Finset ℕ) :
    ∀ (l : List (ℕ × Finset ℕ)) (bm : Option ℕ) (bs sbs : ℕ), sbs ≤ bs →
      l.foldl (identifyStep d) (bm, bs, sbs) =
        if listMax (l.map (tagScore d)) ≤ bs then
          (bm, bs, max sbs (listMax (l.map (tagScore d))))
        else
          ((l.find? fun r => decide (listMax (l.map (tagScore d)) ≤ tagScore d r)).map
              Prod.fst,
            listMax (l.map (tagScore d)),
            max bs (listMax ((l.map (tagScore d)).erase (listMax (l.map (tagScore d)))))) := by
  intro l
  induction l with
  | nil =>
      intro bm bs sbs hle
      simp only [List.foldl_nil, List.map_nil]
      rw [if_pos (by simp [listMax])]
      simp [listMax]
  | cons r l ih =>
      intro bm bs sbs hle
      simp only [List.foldl_cons, List.map_cons, listMax_cons]
      rcases Nat.lt_or_ge bs (tagScore d r) with hbs | hbs
      · have hstep : identifyStep d (bm, bs, sbs) r = (some r.1, tagScore d r, bs) := by
          simp only [identifyStep]
          rw [if_pos hbs]
        rw [hstep, ih (some r.1) (tagScore d r) bs (Nat.le_of_lt hbs)]
        rcases le_or_lt (listMax (l.map (tagScore d))) (tagScore d r) with hT | hT
        · have hM : max (tagScore d r) (listMax (l.map (tagScore d))) = tagScore d r := by
            omega
          simp only [hM]
          rw [if_pos hT, if_neg (by omega)]
          rw [List.find?_cons_of_pos _ (by simp)]
          rw [List.erase_cons_head]
          simp
        · have hM : max (tagScore d r) (listMax (l.map (tagScore d))) =
              listMax (l.map (tagScore d)) := by omega
          simp only [hM]
          rw [if_neg (by omega), if_neg (by omega)]
          rw [List.find?_cons_of_neg _ (by simp only [decide_eq_true_eq]; omega)]
          rw [List.erase_cons_tail (by simp only [beq_iff_eq]; omega)]
          rw [listMax_cons]
          simp only [Prod.mk.injEq]
          refine ⟨by trivial, by trivial, by omega⟩
      · rcases Nat.lt_or_ge sbs (tagScore d r) with hsbs | hsbs
        · have hstep : identifyStep d (bm, bs, sbs) r = (bm, bs, tagScore d r) := by
            simp only [identifyStep]
            rw [if_neg (by omega), if_pos hsbs]
          rw [hstep, ih bm bs (tagScore d r) hbs]
          rcases le_or_lt (listMax (l.map (tagScore d))) bs with hT | hT
          · rw [if_pos hT, if_pos (by omega)]
            simp only [Prod.mk.injEq]
            refine ⟨by trivial, by trivial, by omega⟩
          · have hM : max (tagScore d r) (listMax (l.map (tagScore d))) =
                listMax (l.map (tagScore d)) := by omega
            simp only [hM]
            rw [if_neg (by omega), if_neg (by omega)]
            rw [List.find?_cons_of_neg _ (by simp only [decide_eq_true_eq]; omega)]
            rw [List.erase_cons_tail (by simp only [beq_iff_eq]; omega)]
            rw [listMax_cons]
            simp only [Prod.mk.injEq]
            refine ⟨by trivial, by trivial, by omega⟩
        · have hstep : identifyStep d (bm, bs, sbs) r = (bm, bs, sbs) := by
            simp only [identifyStep]
            rw [if_neg (by omega), if_neg (by omega)]
          rw [hstep, ih bm bs sbs hle]
          rcases le_or_lt (listMax (l.map (tagScore d))) bs with hT | hT
          · rw [if_pos hT, if_pos (by omega)]
            simp only [Prod.mk.injEq]
            refine ⟨by trivial, by trivial, by omega⟩
          · have hM : max (tagScore d r) (listMax (l.map (tagScore d))) =
                listMax (l.map (tagScore d)) := by omega
            simp only [hM]
            rw [if_neg (by omega), if_neg (by omega)]
            rw [List.find?_cons_of_neg _ (by simp only [decide_eq_true_eq]; omega)]
            rw [List.erase_cons_tail (by simp only [beq_iff_eq]; omega)]
            rw [listMax_cons]
            simp only [Prod.mk.injEq]
            refine ⟨by trivial, by trivial, by omega⟩

theorem identifyFold_char (d : Finset ℕ) (rows : List (ℕ × Finset ℕ)) :
    identifyFold d rows =
      if listMax (rows.map (tagScore d)) = 0 then (none, 0, 0)
      else
        ((rows.find? fun r =>
            decide (listMax (rows.map (tagScore d)) ≤ tagScore d r)).map Prod.fst,
          listMax (rows.map (tagScore d)),
          listMax ((rows.map (tagScore d)).erase (listMax (rows.map (tagScore d))))) := by
  unfold identifyFold
  rw [foldl_identifyStep_char d rows none 0 0 (Nat.le_refl 0)]
  rcases Nat.eq_zero_or_pos (listMax (rows.map (tagScore d))) with h0 | hpos
  · rw [if_pos (by omega), if_pos h0, h0]
    simp
  · rw [if_neg (by omega), if_neg (by omega)]
    simp only [Prod.mk.injEq]
    refine ⟨by trivial, by trivial, by omega⟩

theorem identifyFold_best (d : Finset ℕ) (rows : List (ℕ × Finset ℕ)) :
    (identifyFold d rows).2.1 = listMax (rows.map (tagScore d)) := by
  rw [identifyFold_char]
  rcases Nat.eq_zero_or_pos (listMax (rows.map (tagScore d))) with h0 | hpos
  · rw [if_pos h0, h0]
  · rw [if_neg (by omega)]

theorem identifyFold_some_decomp {d : Finset ℕ} {rows : List (ℕ × Finset ℕ)} {w : ℕ}
    (hw : (identifyFold d rows).1 = some w) :
    ∃ a r₀ b, rows = a ++ r₀ :: b ∧ r₀.1 = w ∧
      tagScore d r₀ = listMax (rows.map (tagScore d)) ∧
      (∀ x ∈ a, tagScore d x < tagScore d r₀) ∧
      (identifyFold d rows).2.1 = tagScore d r₀ ∧
      (identifyFold d rows).2.2 =
        listMax (a.map (tagScore d) ++ b.map (tagScore d)) := by
  rcases Nat.eq_zero_or_pos (listMax (rows.map (tagScore d))) with h0 | hpos
  · rw [identifyFold_char, if_pos h0] at hw
    cases hw
  · have hchar := identifyFold_char d rows
    rw [if_neg (by omega)] at hchar
    rw [hchar] at hw
    simp only at hw
    obtain ⟨r₀, hfind, hfst⟩ := Option.map_eq_some'.mp hw
    obtain ⟨a, b, hsplit, hpre⟩ := find?_split _ _ _ hfind
    have hple := @List.find?_some _
      (fun r => decide (listMax (rows.map (tagScore d)) ≤ tagScore d r)) r₀ _ hfind
    simp only [decide_eq_true_eq] at hple
    have hmem : r₀ ∈ rows := List.mem_of_find?_eq_some hfind
    have hub : tagScore d r₀ ≤ listMax (rows.map (tagScore d)) :=
      le_listMax (List.mem_map_of_mem (tagScore d) hmem)
    have hscore : tagScore d r₀ = listMax (rows.map (tagScore d)) := by omega
    have hlt : ∀ x ∈ a, tagScore d x < tagScore d r₀ := by
      intro x hx
      have := hpre x hx
      simp only [decide_eq_false_iff_not, Nat.not_le] at this
      omega
    have hmap : rows.map (tagScore d) =
        a.map (tagScore d) ++ tagScore d r₀ :: b.map (tagScore d) := by
      rw [hsplit]; simp
    have herase : (rows.map (tagScore d)).erase (listMax (rows.map (tagScore d))) =
        a.map (tagScore d) ++ b.map (tagScore d) := by
      rw [← hscore, hmap]
      rw [List.erase_append_right _ (by
        intro hcontra
        obtain ⟨x, hxa, hxe⟩ := List.mem_map.mp hcontra
        have := hlt x hxa
        omega)]
      rw [List.erase_cons_head]
    refine ⟨a, r₀, b, hsplit, hfst, hscore, hlt, ?_, ?_⟩
    · rw [hchar]
      show listMax (rows.map (tagScore d)) = tagScore d r₀
      omega
    · rw [hchar]
      show listMax ((rows.map (tagScore d)).erase (listMax (rows.map (tagScore d)))) =
        listMax (a.map (tagScore d) ++ b.map (tagScore d))
      rw [herase]

end IdentifierLemmas

section Claims

/-- C5: for any two 4-element marker-ID sets and any min_distance, the
allocator's gating check (shared-marker count at most
TAGS_PER_SAMPLE - min_distance, as in is_valid_allocation) holds exactly
when calculate_distance, half the symmetric difference, is at least
min_distance. -/
theorem distance_gating_equivalence (A B : Finset ℕ) (min_distance : ℕ)
    (hA : A.card = 4) (hB : B.card = 4) :
    (is_valid_allocation A [B] min_distance = true ↔
      min_distance ≤ calculate_distance A B) := by
  have hk : (A ∩ B).card ≤ A.card := Finset.card_le_card Finset.inter_subset_left
  have hsym := card_symmDiff_eq A B
  rw [Finset.inter_comm B A] at hsym
  rw [hA] at hk
  unfold is_valid_allocation calculate_distance
  simp only [List.all_cons, List.all_nil, Bool.and_true, decide_eq_true_eq,
    TAGS_PER_SAMPLE]
  rw [hsym, hA, hB]
  omega

/-- C5 witness: the equivalence evaluated at two concrete 4-element sets
with min_distance 2. -/
theorem distance_gating_equivalence_witness :
    ({0, 1, 2, 3} : Finset ℕ).card = 4 ∧ ({0, 1, 4, 5} : Finset ℕ).card = 4 ∧
      (is_valid_allocation {0, 1, 2, 3} [{0, 1, 4, 5}] 2 = true ↔
        2 ≤ calculate_distance {0, 1, 2, 3} {0, 1, 4, 5}) :=
  ⟨by decide, by decide,
    distance_gating_equivalence {0, 1, 2, 3} {0, 1, 4, 5} 2 (by decide) (by decide)⟩

/-- C7: allocate_tags_greedy is deterministic: two calls with the same
existing pool, count 1 and the same universe return the identical result. -/
theorem allocation_deterministic (totalTags : ℕ) (existing r₁ r₂ : List (Finset ℕ))
    (h₁ : allocate_tags_greedy totalTags existing 1 = .ok r₁)
    (h₂ : allocate_tags_greedy totalTags existing 1 = .ok r₂) : r₁ = r₂ := by
  rw [h₁] at h₂
  injection h₂

/-- C7 witness: the two hypotheses discharged on a concrete pool. -/
theorem allocation_deterministic_witness :
    [({0, 1, 4, 5} : Finset ℕ)] = [({0, 1, 4, 5} : Finset ℕ)] :=
  allocation_deterministic 6 [{0, 1, 2, 3}] [{0, 1, 4, 5}] [{0, 1, 4, 5}]
    (by decide) (by decide)

/-- C1: every allocation returned by a run of allocate_tags_greedy is
separated (shared-marker count at most TAGS_PER_SAMPLE - MIN_DISTANCE)
from every allocation of the pre-existing pool and from every other
allocation returned in the same batch; sequential calls that append each
result to the pool are the instance of this statement where the pool
already holds the earlier results. -/
theorem allocation_run_separation (totalTags : ℕ) (existing res : List (Finset ℕ))
    (count : ℕ) (h : allocate_tags_greedy totalTags existing count = .ok res) :
    (∀ a ∈ res, ∀ b ∈ existing, (a ∩ b).card ≤ TAGS_PER_SAMPLE - MIN_DISTANCE) ∧
      res.Pairwise fun a b => (a ∩ b).card ≤ TAGS_PER_SAMPLE - MIN_DISTANCE :=
  allocGo_sep totalTags count existing res h

/-- C1 witness: a concrete batch of two allocations against a one-element
pool in a 6-tag universe. -/
theorem allocation_run_separation_witness :
    (∀ a ∈ [({0, 1, 4, 5} : Finset ℕ), {2, 3, 4, 5}],
        ∀ b ∈ [({0, 1, 2, 3} : Finset ℕ)],
          (a ∩ b).card ≤ TAGS_PER_SAMPLE - MIN_DISTANCE) ∧
      List.Pairwise (fun a b => (a ∩ b).card ≤ TAGS_PER_SAMPLE - MIN_DISTANCE)
        [({0, 1, 4, 5} : Finset ℕ), {2, 3, 4, 5}] :=
  allocation_run_separation 6 [{0, 1, 2, 3}] [{0, 1, 4, 5}, {2, 3, 4, 5}] 2 (by decide)

/-- C8: every allocation returned by allocate_tags_greedy consists of
exactly TAGS_PER_SAMPLE pairwise-distinct marker IDs (a Finset of
cardinality 4) drawn from the universe below totalTags. -/
theorem allocation_well_formed (totalTags : ℕ) (existing res : List (Finset ℕ))
    (count : ℕ) (h : allocate_tags_greedy totalTags existing count = .ok res) :
    ∀ a ∈ res, a.card = TAGS_PER_SAMPLE ∧ ∀ x ∈ a, x < totalTags := by
  intro a ha
  obtain ⟨i, hi, hget⟩ := List.getElem_of_mem ha
  have hone := allocGo_step totalTags count existing res h i hi
  have hgd : res.getD i ∅ = a := by
    rw [List.getD_eq_getElem?_getD, List.getElem?_eq_getElem hi, hget]
    rfl
  rw [hgd] at hone
  exact allocateOne_wf hone

/-- C8 witness: well-formedness of a concrete returned allocation. -/
theorem allocation_well_formed_witness :
    ({2, 3, 4, 5} : Finset ℕ).card = TAGS_PER_SAMPLE ∧
      ∀ x ∈ ({2, 3, 4, 5} : Finset ℕ), x < 6 :=
  allocation_well_formed 6 [{0, 1, 2, 3}] [{0, 1, 4, 5}, {2, 3, 4, 5}] 2 (by decide)
    {2, 3, 4, 5} (by decide)

/-- C2: each allocation returned by allocate_tags_greedy is the first
valid combination in enumeration order over the restricted pool of the
100 least-used marker IDs (usage ascending, ties by ascending ID), or,
when no restricted combination is valid, the first valid combination in
enumeration order over the whole universe; validity is measured against
the pool as it stands when that allocation is computed. -/
theorem allocation_first_valid_choice (totalTags : ℕ) (existing res : List (Finset ℕ))
    (count : ℕ) (h : allocate_tags_greedy totalTags existing count = .ok res)
    (i : ℕ) (hi : i < res.length) :
    isFirstValid (restrictedCombos totalTags (existing ++ res.take i))
        (existing ++ res.take i) (res.getD i ∅) ∨
      ((∀ x ∈ restrictedCombos totalTags (existing ++ res.take i),
          is_valid_allocation x.toFinset (existing ++ res.take i) MIN_DISTANCE = false) ∧
        isFirstValid (allCombos totalTags) (existing ++ res.take i) (res.getD i ∅)) :=
  allocateOne_first (allocGo_step totalTags count existing res h i hi)

/-- C2 witness: the characterization evaluated on a concrete pool in a
6-tag universe. -/
theorem allocation_first_valid_choice_witness :
    isFirstValid
        (restrictedCombos 6 ([({0, 1, 2, 3} : Finset ℕ)] ++
          List.take 0 [({0, 1, 4, 5} : Finset ℕ)]))
        ([({0, 1, 2, 3} : Finset ℕ)] ++ List.take 0 [({0, 1, 4, 5} : Finset ℕ)])
        (List.getD [({0, 1, 4, 5} : Finset ℕ)] 0 ∅) ∨
      ((∀ x ∈ restrictedCombos 6 ([({0, 1, 2, 3} : Finset ℕ)] ++
            List.take 0 [({0, 1, 4, 5} : Finset ℕ)]),
          is_valid_allocation x.toFinset
            ([({0, 1, 2, 3} : Finset ℕ)] ++ List.take 0 [({0, 1, 4, 5} : Finset ℕ)])
            MIN_DISTANCE = false) ∧
        isFirstValid (allCombos 6)
          ([({0, 1, 2, 3} : Finset ℕ)] ++ List.take 0 [({0, 1, 4, 5} : Finset ℕ)])
          (List.getD [({0, 1, 4, 5} : Finset ℕ)] 0 ∅)) :=
  allocation_first_valid_choice 6 [{0, 1, 2, 3}] [{0, 1, 4, 5}] 1 (by decide) 0 (by decide)

/-- C3: a request for one more allocation fails with the hard error
exactly when no combination of the entire universe passes the separation
check against the current pool, and the error then carries the number of
samples already allocated; in particular, with a 4-tag universe and the
pool holding the single allocation of all four tags, the next request
fails with error payload 1. -/
theorem allocation_capacity_exhaustion :
    (∀ (totalTags : ℕ) (existing : List (Finset ℕ)) (k : ℕ),
        allocate_tags_greedy totalTags existing 1 = .error k ↔
          ((∀ combo ∈ allCombos totalTags,
              is_valid_allocation combo.toFinset existing MIN_DISTANCE = false) ∧
            k = existing.length)) ∧
      (∀ (totalTags : ℕ) (existing : List (Finset ℕ)) (count k : ℕ),
        allocate_tags_greedy totalTags existing count = .error k →
          ∃ new, (∀ combo ∈ allCombos totalTags,
              is_valid_allocation combo.toFinset (existing ++ new) MIN_DISTANCE = false) ∧
            k = (existing ++ new).length) ∧
      allocate_tags_greedy 4 [{0, 1, 2, 3}] 1 = .error 1 := by
  refine ⟨?_, ?_, by decide⟩
  · intro totalTags existing k
    constructor
    · intro h
      cases hone : allocateOne totalTags existing with
      | some c =>
          have hs : allocate_tags_greedy totalTags existing 1 =
              (allocGo totalTags 0 (existing ++ [c])).map fun rest => c :: rest := by
            unfold allocate_tags_greedy
            simp only [allocGo, hone]
          rw [hs] at h
          simp only [allocGo, Except.map] at h
          cases h
      | none =>
          have hs : allocate_tags_greedy totalTags existing 1 =
              .error existing.length := by
            unfold allocate_tags_greedy
            simp only [allocGo, hone]
          rw [hs] at h
          obtain rfl : existing.length = k := by injection h
          exact ⟨allocateOne_none_iff.mp hone, rfl⟩
    · rintro ⟨hall, rfl⟩
      have hone : allocateOne totalTags existing = none := allocateOne_none_iff.mpr hall
      unfold allocate_tags_greedy
      simp only [allocGo, hone]
  · intro totalTags existing count k h
    obtain ⟨new, hnone, hlen⟩ := allocGo_error totalTags count existing k h
    exact ⟨new, allocateOne_none_iff.mp hnone, hlen⟩

/-- C3 witness: the general equivalence applied to the concrete 4-tag
universe with the all-tags allocation already in the pool. -/
theorem allocation_capacity_exhaustion_witness :
    (∀ combo ∈ allCombos 4,
        is_valid_allocation combo.toFinset [({0, 1, 2, 3} : Finset ℕ)]
          MIN_DISTANCE = false) ∧
      (1 : ℕ) = [({0, 1, 2, 3} : Finset ℕ)].length :=
  (allocation_capacity_exhaustion.1 4 [{0, 1, 2, 3}] 1).mp (by decide)

theorem streaming_second_exact_aux {rows : List (ℕ × Finset ℕ)} {d : Finset ℕ} {w : ℕ}
    (hnd : (rows.map Prod.fst).Nodup)
    (hw : (identifyFold d rows).1 = some w) :
    (identifyFold d rows).2.2 =
      listMax ((rows.filter fun r => decide (r.1 ≠ w)).map (tagScore d)) := by
  obtain ⟨a, r₀, b, hsplit, hfst, hscore, hlt, hbs, hsbs⟩ := identifyFold_some_decomp hw
  have hmapf : rows.map Prod.fst = a.map Prod.fst ++ r₀.1 :: b.map Prod.fst := by
    rw [hsplit]; simp
  rw [hmapf, List.nodup_append] at hnd
  obtain ⟨hnda, hndb, hdisj⟩ := hnd
  have hwa : w ∉ a.map Prod.fst := by
    intro hcontra
    exact hdisj hcontra (by rw [hfst]; exact List.mem_cons_self w _)
  have hwb : w ∉ b.map Prod.fst := by
    have hcons := List.nodup_cons.mp hndb
    rw [hfst] at hcons
    exact hcons.1
  have hfa : a.filter (fun r => decide (r.1 ≠ w)) = a := by
    apply List.filter_eq_self.mpr
    intro x hx
    simp only [decide_eq_true_eq]
    intro hxw
    exact hwa (hxw ▸ List.mem_map_of_mem Prod.fst hx)
  have hfb : b.filter (fun r => decide (r.1 ≠ w)) = b := by
    apply List.filter_eq_self.mpr
    intro x hx
    simp only [decide_eq_true_eq]
    intro hxw
    exact hwb (hxw ▸ List.mem_map_of_mem Prod.fst hx)
  have hfilter : rows.filter (fun r => decide (r.1 ≠ w)) = a ++ b := by
    rw [hsplit, List.filter_append, List.filter_cons]
    rw [if_neg (by simp [hfst])]
    rw [hfa, hfb]
  rw [hfilter, List.map_append]
  exact hsbs

/-- C6 counterexample to the claim as stated: there is no ordering of
per-sample scores on which the streaming second-best differs from the
true second-highest; the negation of the claimed existence is proved. -/
theorem streaming_no_distinguishing_order :
    ¬ ∃ (rows : List (ℕ × Finset ℕ)) (d : Finset ℕ) (w : ℕ),
        (rows.map Prod.fst).Nodup ∧ (identifyFold d rows).1 = some w ∧
          (identifyFold d rows).2.2 ≠
            listMax ((rows.filter fun r => decide (r.1 ≠ w)).map (tagScore d)) := by
  rintro ⟨rows, d, w, hnd, hw, hne⟩
  exact hne (streaming_second_exact_aux hnd hw)

/-- C6 amended: the identifier's streaming best/second-best tracking is
exact, not an approximation: whenever the fold elects a winner, the final
streaming second_best_score equals the true highest score among all
samples other than the winner, for every ordering of the rows; in
particular the score sequence 5, 3, 5 produces second-best 5, the true
second-highest. -/
theorem streaming_second_best_exact (rows : List (ℕ × Finset ℕ)) (d : Finset ℕ) (w : ℕ)
    (hnd : (rows.map Prod.fst).Nodup)
    (hw : (identifyFold d rows).1 = some w) :
    (identifyFold d rows).2.2 =
      listMax ((rows.filter fun r => decide (r.1 ≠ w)).map (tagScore d)) :=
  streaming_second_exact_aux hnd hw

/-- C6 witness: the cited score sequence 5, 3, 5, on which streaming
second-best and the true second-highest both evaluate to 5. -/
theorem streaming_second_best_exact_witness :
    (identifyFold {1, 2, 3, 4, 5}
        [(1, {1, 2, 3, 4, 5}), (2, {1, 2, 3}), (3, {1, 2, 3, 4, 5})]).2.2 =
      listMax (([(1, ({1, 2, 3, 4, 5} : Finset ℕ)), (2, {1, 2, 3}),
            (3, {1, 2, 3, 4, 5})].filter fun r => decide (r.1 ≠ 1)).map
          (tagScore {1, 2, 3, 4, 5})) :=
  streaming_second_best_exact
    [(1, {1, 2, 3, 4, 5}), (2, {1, 2, 3}), (3, {1, 2, 3, 4, 5})]
    {1, 2, 3, 4, 5} 1 (by decide) (by decide)

/-- C4: identify_sample_by_tags returns a sample identifier exactly when
the raw detection list has at least min_match elements, the best
intersection score over all samples reaches min_match, and the best
score beats the tracked second-best by at least 1; in every other case it
returns None. -/
theorem identification_accept_iff (rows : List (ℕ × Finset ℕ))
    (detected_tags : List ℕ) (min_match : ℕ) :
    (∃ s, identify_sample_by_tags rows detected_tags min_match = some s) ↔
      (min_match ≤ detected_tags.length ∧
        min_match ≤ listMax (rows.map (tagScore detected_tags.toFinset)) ∧
        (identifyFold detected_tags.toFinset rows).2.2 + 1 ≤
          listMax (rows.map (tagScore detected_tags.toFinset))) := by
  have hbs := identifyFold_best detected_tags.toFinset rows
  unfold identify_sample_by_tags
  by_cases hlen : detected_tags.length < min_match
  · rw [if_pos hlen]
    constructor
    · rintro ⟨s, hs⟩
      cases hs
    · rintro ⟨h1, -⟩
      omega
  · rw [if_neg hlen]
    by_cases hC : min_match ≤ (identifyFold detected_tags.toFinset rows).2.1 ∧
        1 ≤ (identifyFold detected_tags.toFinset rows).2.1 -
          (identifyFold detected_tags.toFinset rows).2.2
    · rw [if_pos hC]
      constructor
      · rintro -
        refine ⟨by omega, by omega, by omega⟩
      · rintro ⟨-, hM, hmargin⟩
        have hpos : 0 < listMax (rows.map (tagScore detected_tags.toFinset)) := by
          omega
        have hchar := identifyFold_char detected_tags.toFinset rows
        rw [if_neg (by omega)] at hchar
        have hmem := listMax_mem_of_pos hpos
        obtain ⟨r, hr, hrs⟩ := List.mem_map.mp hmem
        have hsome : (rows.find? fun r =>
            decide (listMax (rows.map (tagScore detected_tags.toFinset)) ≤
              tagScore detected_tags.toFinset r)).isSome := by
          apply List.find?_isSome.mpr
          exact ⟨r, hr, by simp [hrs]⟩
        obtain ⟨r', hr'⟩ := Option.isSome_iff_exists.mp hsome
        refine ⟨r'.1, ?_⟩
        rw [hchar]
        show Option.map Prod.fst (rows.find? _) = some r'.1
        rw [hr']
        rfl
    · rw [if_neg hC]
      constructor
      · rintro ⟨s, hs⟩
        cases hs
      · rintro ⟨h1, hM, hmargin⟩
        exact absurd (by omega : min_match ≤
            (identifyFold detected_tags.toFinset rows).2.1 ∧
          1 ≤ (identifyFold detected_tags.toFinset rows).2.1 -
            (identifyFold detected_tags.toFinset rows).2.2) hC

/-- C4 witness: the acceptance equivalence applied at a concrete table
and detection list, producing the accepted identification. -/
theorem identification_accept_iff_witness :
    ∃ s, identify_sample_by_tags [((1 : ℕ), ({1, 2, 3, 4} : Finset ℕ)),
        (2, {10, 11, 12, 13})] [1, 2, 3] 3 = some s :=
  (identification_accept_iff [(1, {1, 2, 3, 4}), (2, {10, 11, 12, 13})]
      [1, 2, 3] 3).mpr (by refine ⟨by decide, by decide, by decide⟩)

/-- C9: when the detection list holds fewer than min_match distinct IDs,
identify_sample_by_tags returns None for every allocation table, even
when the raw list length passes the length precondition: every
intersection score is bounded by the distinct-detection count. -/
theorem identify_distinct_below_min_match_none (rows : List (ℕ × Finset ℕ))
    (detected_tags : List ℕ) (min_match : ℕ)
    (h : detected_tags.toFinset.card < min_match) :
    identify_sample_by_tags rows detected_tags min_match = none := by
  unfold identify_sample_by_tags
  by_cases hlen : detected_tags.length < min_match
  · rw [if_pos hlen]
  · rw [if_neg hlen]
    have hbs := identifyFold_best detected_tags.toFinset rows
    have hM : listMax (rows.map (tagScore detected_tags.toFinset)) < min_match := by
      apply listMax_lt_of_forall (by omega)
      intro x hx
      obtain ⟨r, hr, hrx⟩ := List.mem_map.mp hx
      have hbound : tagScore detected_tags.toFinset r ≤ detected_tags.toFinset.card :=
        Finset.card_le_card Finset.inter_subset_left
      omega
    rw [if_neg (by omega)]

/-- C9 witness: a raw list of length 3 with only 2 distinct IDs is
rejected with min_match 3. -/
theorem identify_distinct_below_min_match_none_witness :
    ([1, 1, 2] : List ℕ).toFinset.card < 3 ∧
      identify_sample_by_tags [(1, {1, 2, 3, 4})] [1, 1, 2] 3 = none :=
  ⟨by decide, identify_distinct_below_min_match_none [(1, {1, 2, 3, 4})] [1, 1, 2] 3
    (by decide)⟩

/-- C10: an identification returned by identify_sample_by_tags always
names a sample present in the table, whose intersection score reaches
min_match and strictly exceeds the score of every other sample; top-score
ties are never returned. -/
theorem identify_some_unique_strict_winner (rows : List (ℕ × Finset ℕ))
    (detected_tags : List ℕ) (min_match s : ℕ)
    (h : identify_sample_by_tags rows detected_tags min_match = some s) :
    ∃ tags, (s, tags) ∈ rows ∧
      min_match ≤ tagScore detected_tags.toFinset (s, tags) ∧
      ∀ r ∈ rows, r.1 ≠ s →
        tagScore detected_tags.toFinset r < tagScore detected_tags.toFinset (s, tags) := by
  unfold identify_sample_by_tags at h
  by_cases hlen : detected_tags.length < min_match
  · rw [if_pos hlen] at h
    cases h
  · rw [if_neg hlen] at h
    by_cases hC : min_match ≤ (identifyFold detected_tags.toFinset rows).2.1 ∧
        1 ≤ (identifyFold detected_tags.toFinset rows).2.1 -
          (identifyFold detected_tags.toFinset rows).2.2
    · rw [if_pos hC] at h
      obtain ⟨a, r₀, b, hsplit, hfst, hscore, hlt, hbs, hsbs⟩ :=
        identifyFold_some_decomp h
      have hr₀eq : (s, r₀.2) = r₀ := by
        rw [← hfst]
      refine ⟨r₀.2, ?_, ?_, ?_⟩
      · rw [hr₀eq, hsplit]
        exact List.mem_append_right a (List.mem_cons_self r₀ b)
      · have : tagScore detected_tags.toFinset (s, r₀.2) =
            tagScore detected_tags.toFinset r₀ := rfl
        rw [this]
        omega
      · intro r hr hrs
        have hscore_r : tagScore detected_tags.toFinset (s, r₀.2) =
            tagScore detected_tags.toFinset r₀ := rfl
        rw [hscore_r]
        rw [hsplit] at hr
        rcases List.mem_append.mp hr with hra | hrb
        · exact hlt r hra
        · rcases List.mem_cons.mp hrb with rfl | hrb'
          · exact absurd hfst hrs
          · have hin : tagScore detected_tags.toFinset r ∈
                a.map (tagScore detected_tags.toFinset) ++
                  b.map (tagScore detected_tags.toFinset) :=
              List.mem_append_right _
                (List.mem_map_of_mem (tagScore detected_tags.toFinset) hrb')
            have := le_listMax hin
            omega
    · rw [if_neg hC] at h
      cases h

/-- C10 witness: a concrete accepted identification, showing the winner
is in the table with score at least 3 and a strict lead over the other
sample. -/
theorem identify_some_unique_strict_winner_witness :
    ∃ tags, ((1 : ℕ), tags) ∈ [((1 : ℕ), ({1, 2, 3, 4} : Finset ℕ)), (2, {10, 11, 12, 13})] ∧
      3 ≤ tagScore ([1, 2, 3] : List ℕ).toFinset (1, tags) ∧
      ∀ r ∈ [((1 : ℕ), ({1, 2, 3, 4} : Finset ℕ)), (2, {10, 11, 12, 13})], r.1 ≠ 1 →
        tagScore ([1, 2, 3] : List ℕ).toFinset r <
          tagScore ([1, 2, 3] : List ℕ).toFinset (1, tags) :=
  identify_some_unique_strict_winner [(1, {1, 2, 3, 4}), (2, {10, 11, 12, 13})]
    [1, 2, 3] 3 1 (by decide)

end Claims
